import Mathlib

/-!
Verification development for the rolling-sampler-clone repository.

The repository is an audio plugin whose core is specified as four components:
a BufferSizePolicy (`resolve`), a RollingCaptureBuffer (`ingest`,
`current_window`, `reset`), a VisualizationHandoff (`publish`, `try_read`)
and a SilenceTrimmer (`trim`).  The source under `src/` declares the plugin
state (`RollingSamplerClone`, `RollingSamplerCloneParams`, `BufferSize`,
`Note`, `ThemeType`, the `Default` implementations and the `process`
callback); the four core operations themselves are not present under `src/`
(only their state declarations, UI toggles and callers are), so those
operations are modelled here from the specification's words, each marked
`Modelled from the spec:`.  Samples (`f32` in the source) are modelled as
rationals; all stated sample values are exactly representable.
-/

/-- Modelled from the spec: the `RollingCaptureBuffer` data model (one ring,
i.e. one channel): fixed-length `storage` of samples, a `write_cursor` that
always points at the next slot to be overwritten, and `filled ≤ capacity`.
The operations `ingest`, `current_window`, `reset` are missing from `src/`
(only the `recording_buffer` declaration and an inert `process` exist). -/
structure RollingCaptureBuffer where
  storage : List ℚ
  write_cursor : ℕ
  filled : ℕ
  deriving DecidableEq, Repr

namespace RollingCaptureBuffer

/-- The capacity of the ring is the fixed length of its storage. -/
def capacity (b : RollingCaptureBuffer) : ℕ := b.storage.length

/-- Modelled from the spec: a freshly created buffer with the given capacity
(storage allocated, nothing filled, cursor at 0). -/
def new (cap : ℕ) : RollingCaptureBuffer :=
  { storage := List.replicate cap 0, write_cursor := 0, filled := 0 }

/-- Modelled from the spec: write one sample into the ring, advancing
`write_cursor` modulo capacity and incrementing `filled` up to capacity. -/
def ingestOne (b : RollingCaptureBuffer) (x : ℚ) : RollingCaptureBuffer :=
  { storage := b.storage.set b.write_cursor x
    write_cursor := (b.write_cursor + 1) % b.storage.length
    filled := min (b.filled + 1) b.storage.length }

/-- Modelled from the spec: `ingest(samples)` writes each sample of the block
into the ring in order. -/
def ingest (b : RollingCaptureBuffer) (xs : List ℚ) : RollingCaptureBuffer :=
  xs.foldl ingestOne b

/-- Modelled from the spec: the logically-ordered (oldest-first) view —
rotate the ring starting at `write_cursor` when `filled == capacity`, or
read `[0, filled)` when not yet full. -/
def current_window (b : RollingCaptureBuffer) : List ℚ :=
  if b.filled = b.storage.length then
    b.storage.drop b.write_cursor ++ b.storage.take b.write_cursor
  else
    b.storage.take b.filled

/-- Modelled from the spec: `reset()` clears `filled` to 0 and `write_cursor`
to 0 without deallocating storage. -/
def reset (b : RollingCaptureBuffer) : RollingCaptureBuffer :=
  { b with write_cursor := 0, filled := 0 }

/-- States reachable from a fresh buffer: either still filling (cursor equals
fill level) or full (cursor anywhere below capacity). -/
def Inv (b : RollingCaptureBuffer) : Prop :=
  (b.filled < b.capacity ∧ b.write_cursor = b.filled) ∨
    (b.filled = b.capacity ∧ b.write_cursor < b.capacity)

end RollingCaptureBuffer

/-- The last `n` elements of a list (all of it when it is shorter). -/
def lastN (n : ℕ) (l : List ℚ) : List ℚ := l.drop (l.length - n)

theorem lastN_length (n : ℕ) (l : List ℚ) : (lastN n l).length = min n l.length := by
  simp [lastN]
  omega

theorem lastN_of_length_le (n : ℕ) (l : List ℚ) (h : l.length ≤ n) : lastN n l = l := by
  simp [lastN, Nat.sub_eq_zero_of_le h]

/-- Dropping a whole leading block before taking the last `n` changes nothing
once the rest is at least `n` long. -/
theorem lastN_append_left (n : ℕ) (u w : List ℚ) (h : n ≤ w.length) :
    lastN n (u ++ w) = lastN n w := by
  unfold lastN
  rw [List.length_append,
    show u.length + w.length - n = u.length + (w.length - n) by omega,
    List.drop_append]

/-- Appending after truncating to the last `n` does not change the last `n`. -/
theorem lastN_append_lastN (n : ℕ) (l xs : List ℚ) :
    lastN n (lastN n l ++ xs) = lastN n (l ++ xs) := by
  rcases le_or_lt l.length n with h | h
  · rw [lastN_of_length_le n l h]
  · have hdecomp : l.take (l.length - n) ++ lastN n l = l := List.take_append_drop _ l
    have hlen : n ≤ (lastN n l ++ xs).length := by
      rw [List.length_append, lastN_length]; omega
    conv_rhs => rw [← hdecomp]
    rw [List.append_assoc, lastN_append_left n _ _ hlen]

namespace RollingCaptureBuffer

theorem capacity_ingestOne (b : RollingCaptureBuffer) (x : ℚ) :
    (b.ingestOne x).capacity = b.capacity := by
  simp [ingestOne, capacity]

/-- A cons ahead of a block at least `n` long does not change the last `n`. -/
theorem lastN_cons (n : ℕ) (a : ℚ) (w : List ℚ) (h : n ≤ w.length) :
    lastN n (a :: w) = lastN n w :=
  lastN_append_left n [a] w h

/-- One ingested sample preserves the reachable-state invariant and shifts the
window: the new window is the last `capacity` samples of the old window
followed by the new sample. -/
theorem ingestOne_spec (b : RollingCaptureBuffer) (x : ℚ) (hb : b.Inv) :
    (b.ingestOne x).Inv ∧
      (b.ingestOne x).current_window = lastN b.capacity (b.current_window ++ [x]) := by
  obtain ⟨s, c, f⟩ := b
  simp only [Inv, capacity, ingestOne, current_window, List.length_set] at hb ⊢
  rcases hb with ⟨hf, hc⟩ | ⟨hf, hc⟩
  · -- still filling: cursor = filled < capacity
    subst hc
    have hset : s.set c x = s.take c ++ x :: s.drop (c + 1) :=
      List.set_eq_take_cons_drop x hf
    have htk : (s.take c).length = c := by simp; omega
    rcases Nat.lt_or_ge (c + 1) s.length with h1 | h1
    · -- filled + 1 < capacity : still filling afterwards
      have hmod : (c + 1) % s.length = c + 1 := Nat.mod_eq_of_lt h1
      have hmin : min (c + 1) s.length = c + 1 := by omega
      rw [hmod, hmin]
      refine ⟨Or.inl ⟨h1, rfl⟩, ?_⟩
      rw [if_neg (by omega), if_neg (by omega),
        lastN_of_length_le _ _ (by simp; omega), hset,
        show c + 1 = (s.take c).length + 1 by rw [htk], List.take_append 1]
      simp
    · -- filled + 1 = capacity : buffer becomes full
      have heq : c + 1 = s.length := by omega
      have hmod : (c + 1) % s.length = 0 := by rw [heq]; exact Nat.mod_self _
      have hmin : min (c + 1) s.length = s.length := by omega
      have hdrop : s.drop (c + 1) = [] := by rw [heq]; exact List.drop_length s
      rw [hmod, hmin]
      refine ⟨Or.inr ⟨rfl, by omega⟩, ?_⟩
      rw [if_pos rfl, if_neg (by omega), List.drop_zero, List.take_zero,
        List.append_nil, lastN_of_length_le _ _ (by simp; omega), hset, hdrop]
  · -- full buffer: cursor below capacity, every slot occupied
    subst hf
    have hlen0 : 0 < s.length := by omega
    have hset : s.set c x = s.take c ++ x :: s.drop (c + 1) :=
      List.set_eq_take_cons_drop x hc
    have hset' : s.set c x = (s.take c ++ [x]) ++ s.drop (c + 1) := by
      rw [hset]; simp
    have htk : (s.take c).length = c := by simp; omega
    have hulen : (s.take c ++ [x]).length = c + 1 := by simp [htk]
    have hmin : min (s.length + 1) s.length = s.length := by omega
    have htarget : lastN s.length ((s.drop c ++ s.take c) ++ [x]) =
        s.drop (c + 1) ++ s.take c ++ [x] := by
      rw [List.drop_eq_getElem_cons hc, List.cons_append, List.cons_append,
        lastN_cons]
      · exact lastN_of_length_le _ _ (by simp; omega)
      · simp
        omega
    rw [hmin]
    refine ⟨Or.inr ⟨rfl, Nat.mod_lt _ hlen0⟩, ?_⟩
    rw [if_pos rfl, if_pos rfl, htarget]
    rcases Nat.lt_or_ge (c + 1) s.length with h1 | h1
    · -- cursor + 1 < capacity
      have hmod : (c + 1) % s.length = c + 1 := Nat.mod_eq_of_lt h1
      have hdropeq : (s.set c x).drop (c + 1) = s.drop (c + 1) := by
        rw [hset', ← hulen]; exact List.drop_left _ _
      have htakeeq : (s.set c x).take (c + 1) = s.take c ++ [x] := by
        rw [hset', ← hulen]; exact List.take_left _ _
      rw [hmod, hdropeq, htakeeq, List.append_assoc]
    · -- cursor + 1 = capacity : wrap to slot 0
      have heq : c + 1 = s.length := by omega
      have hmod : (c + 1) % s.length = 0 := by rw [heq]; exact Nat.mod_self _
      have hdrop : s.drop (c + 1) = [] := by rw [heq]; exact List.drop_length s
      rw [hmod, List.drop_zero, List.take_zero, List.append_nil, hset, hdrop]
      simp

theorem window_length_le (b : RollingCaptureBuffer) :
    b.current_window.length ≤ b.capacity := by
  obtain ⟨s, c, f⟩ := b
  simp only [current_window, capacity]
  split <;> simp <;> omega

/-- Ingesting a block preserves the invariant and leaves as window the last
`capacity` samples of the old window followed by the block. -/
theorem ingest_spec (xs : List ℚ) : ∀ b : RollingCaptureBuffer, b.Inv →
    (b.ingest xs).Inv ∧
      (b.ingest xs).current_window = lastN b.capacity (b.current_window ++ xs) := by
  induction xs with
  | nil =>
    intro b hb
    refine ⟨hb, ?_⟩
    rw [List.append_nil, lastN_of_length_le _ _ (window_length_le b)]
    rfl
  | cons x xs ih =>
    intro b hb
    obtain ⟨hinv1, hwin1⟩ := ingestOne_spec b x hb
    obtain ⟨hinv2, hwin2⟩ := ih (b.ingestOne x) hinv1
    have hstep : b.ingest (x :: xs) = (b.ingestOne x).ingest xs := rfl
    refine ⟨hstep ▸ hinv2, ?_⟩
    rw [hstep, hwin2, capacity_ingestOne, hwin1, lastN_append_lastN,
      ← List.append_cons]

theorem ingest_append (b : RollingCaptureBuffer) (xs ys : List ℚ) :
    b.ingest (xs ++ ys) = (b.ingest xs).ingest ys := by
  simp [ingest, List.foldl_append]

/-- A sequence of ingest calls is one ingest of the concatenated blocks. -/
theorem foldl_ingest_flatten (blocks : List (List ℚ)) :
    ∀ b : RollingCaptureBuffer, blocks.foldl ingest b = b.ingest blocks.flatten := by
  induction blocks with
  | nil => intro b; rfl
  | cons bl blocks ih =>
    intro b
    rw [List.foldl_cons, ih, List.flatten_cons, ingest_append]

theorem new_inv (cap : ℕ) (hcap : 0 < cap) : (new cap).Inv := by
  left
  simp [new, capacity, hcap]

theorem capacity_new (cap : ℕ) : (new cap).capacity = cap := by
  simp [new, capacity]

theorem window_new (cap : ℕ) (hcap : 0 < cap) : (new cap).current_window = [] := by
  simp only [new, current_window, List.length_replicate]
  rw [if_neg (by omega)]
  simp

/-- From a fresh buffer, the window after ingesting any samples is their last
`capacity`-long suffix. -/
theorem window_ingest_new (cap : ℕ) (hcap : 0 < cap) (xs : List ℚ) :
    ((new cap).ingest xs).current_window = lastN cap xs := by
  obtain ⟨-, hwin⟩ := ingest_spec xs (new cap) (new_inv cap hcap)
  rw [hwin, capacity_new, window_new cap hcap, List.nil_append]

end RollingCaptureBuffer

/-- C1: For every sequence of ingest calls whose total ingested sample count
exceeds the buffer's capacity, `current_window()` returns exactly the most
recent `capacity` samples ingested, in ingestion order — the tail of the
concatenated ingested blocks — and its length equals the capacity.  The
single-block scenario is the instance `blocks = [block]`. -/
theorem rolling_window_most_recent (cap : ℕ) (hcap : 0 < cap)
    (blocks : List (List ℚ)) (hlen : cap < blocks.flatten.length) :
    (blocks.foldl RollingCaptureBuffer.ingest (RollingCaptureBuffer.new cap)).current_window
        = blocks.flatten.drop (blocks.flatten.length - cap) ∧
      (blocks.foldl RollingCaptureBuffer.ingest
        (RollingCaptureBuffer.new cap)).current_window.length = cap := by
  rw [RollingCaptureBuffer.foldl_ingest_flatten,
    RollingCaptureBuffer.window_ingest_new cap hcap]
  refine ⟨rfl, ?_⟩
  rw [lastN_length]
  omega

/-- Witness for C1: capacity 2, ingesting blocks `[1,2]` then `[3,4,5]`
(5 samples in all) leaves exactly the most recent 2 samples `[4,5]`. -/
theorem rolling_window_most_recent_witness :
    ([[(1 : ℚ), 2], [3, 4, 5]].foldl RollingCaptureBuffer.ingest
        (RollingCaptureBuffer.new 2)).current_window
        = [[(1 : ℚ), 2], [3, 4, 5]].flatten.drop
            ([[(1 : ℚ), 2], [3, 4, 5]].flatten.length - 2) ∧
      ([[(1 : ℚ), 2], [3, 4, 5]].foldl RollingCaptureBuffer.ingest
        (RollingCaptureBuffer.new 2)).current_window.length = 2 :=
  rolling_window_most_recent 2 (by decide) [[(1 : ℚ), 2], [3, 4, 5]] (by decide)

/-- C7: after `reset()`, `current_window()` (before any further ingest)
returns the empty sequence regardless of prior content, and `reset` clears
`filled` to 0 and `write_cursor` to 0 without touching the storage. -/
theorem reset_clears_window (b : RollingCaptureBuffer) :
    b.reset.current_window = [] ∧ b.reset.filled = 0 ∧
      b.reset.write_cursor = 0 ∧ b.reset.storage = b.storage := by
  refine ⟨?_, rfl, rfl, rfl⟩
  simp only [RollingCaptureBuffer.reset, RollingCaptureBuffer.current_window]
  split
  · rename_i h
    have hnil : b.storage = [] := List.eq_nil_of_length_eq_zero h.symm
    simp [hnil]
  · simp


/-- Modelled from the spec: a frame counts as silent only if every channel's
sample at that frame equals the silence value 0.0. -/
def silentFrame (frame : List ℚ) : Bool := frame.all (fun s => s == 0)

/-- The clip after dropping the maximal leading run of silent frames and,
symmetrically from the end (via reversal), the maximal trailing run. -/
def dropSilence (clip : List (List ℚ)) : List (List ℚ) :=
  ((clip.dropWhile silentFrame).reverse.dropWhile silentFrame).reverse

/-- Modelled from the spec: the SilenceTrimmer's `trim(clip)` returns the clip
with leading and trailing silence removed, or `none` when trimming removes
the entire clip.  The trimming algorithm itself is not present under `src/`
(only the `trim_silence` toggle and its doc comment are). -/
def trim (clip : List (List ℚ)) : Option (List (List ℚ)) :=
  if dropSilence clip = [] then none else some (dropSilence clip)

theorem dropSilence_eq_nil_iff (clip : List (List ℚ)) :
    dropSilence clip = [] ↔ ∀ f ∈ clip, silentFrame f = true := by
  unfold dropSilence
  rw [List.reverse_eq_nil_iff, List.dropWhile_eq_nil_iff]
  constructor
  · intro h f hf
    rw [← List.takeWhile_append_dropWhile silentFrame clip] at hf
    rcases List.mem_append.mp hf with h1 | h2
    · exact List.mem_takeWhile_imp h1
    · exact h f (List.mem_reverse.mpr h2)
  · intro h x hx
    rw [List.mem_reverse] at hx
    refine h x ?_
    rw [← List.takeWhile_append_dropWhile silentFrame clip]
    exact List.mem_append_right _ hx

/-- Structure of a non-empty trim result: the clip splits as a silent lead,
the result itself, and a silent tail, with the result's first and last
frames non-silent (so both dropped runs are maximal). -/
theorem dropSilence_spec (clip : List (List ℚ)) (h : dropSilence clip ≠ []) :
    ∃ pre post, clip = pre ++ dropSilence clip ++ post ∧
      (∀ f ∈ pre, silentFrame f = true) ∧ (∀ f ∈ post, silentFrame f = true) ∧
      (∀ a, (dropSilence clip).head? = some a → silentFrame a = false) ∧
      (∀ a, (dropSilence clip).getLast? = some a → silentFrame a = false) := by
  have hdec2 : clip.dropWhile silentFrame =
      dropSilence clip ++ ((clip.dropWhile silentFrame).reverse.takeWhile silentFrame).reverse := by
    conv_lhs => rw [← List.reverse_reverse (clip.dropWhile silentFrame),
      ← List.takeWhile_append_dropWhile silentFrame (clip.dropWhile silentFrame).reverse]
    rw [List.reverse_append]
    rfl
  have hdec1 : clip = clip.takeWhile silentFrame ++
      (dropSilence clip ++ ((clip.dropWhile silentFrame).reverse.takeWhile silentFrame).reverse) := by
    rw [← hdec2, List.takeWhile_append_dropWhile]
  have hne1 : clip.dropWhile silentFrame ≠ [] := by
    intro hnil
    rw [hnil] at hdec2
    exact h (List.append_eq_nil.mp hdec2.symm).1
  refine ⟨clip.takeWhile silentFrame,
    ((clip.dropWhile silentFrame).reverse.takeWhile silentFrame).reverse,
    by rw [List.append_assoc]; exact hdec1, ?_, ?_, ?_, ?_⟩
  · intro f hf
    exact List.mem_takeWhile_imp hf
  · intro f hf
    rw [List.mem_reverse] at hf
    exact List.mem_takeWhile_imp hf
  · intro a ha
    obtain ⟨b, ts, hts⟩ := List.exists_cons_of_ne_nil h
    rw [hts] at ha
    obtain rfl : a = b := by simpa using ha.symm
    have hd1head : (clip.dropWhile silentFrame).head? = some a := by
      rw [hdec2, hts]
      rfl
    have hnot := List.head_dropWhile_not silentFrame clip hne1
    rw [List.head?_eq_head hne1] at hd1head
    obtain heq : (clip.dropWhile silentFrame).head hne1 = a := by simpa using hd1head
    rw [heq] at hnot
    simpa using hnot
  · intro a ha
    have hrev : (dropSilence clip).reverse =
        (clip.dropWhile silentFrame).reverse.dropWhile silentFrame :=
      List.reverse_reverse _
    have hner : (clip.dropWhile silentFrame).reverse.dropWhile silentFrame ≠ [] := by
      rw [← hrev]
      simpa using h
    have hrevhead : ((clip.dropWhile silentFrame).reverse.dropWhile silentFrame).head? = some a := by
      rw [← hrev, List.head?_reverse]
      exact ha
    have hnot := List.head_dropWhile_not silentFrame (clip.dropWhile silentFrame).reverse hner
    rw [List.head?_eq_head hner] at hrevhead
    obtain heq : ((clip.dropWhile silentFrame).reverse.dropWhile silentFrame).head hner = a := by
      simpa using hrevhead
    rw [heq] at hnot
    simpa using hnot

theorem dropWhile_eq_self_of_head (p : List ℚ → Bool) (l : List (List ℚ)) (a : List ℚ)
    (ha : l.head? = some a) (hp : p a = false) : l.dropWhile p = l := by
  cases l with
  | nil => simp at ha
  | cons b ts =>
    obtain rfl : a = b := by simpa using ha.symm
    rw [List.dropWhile_cons, hp]
    simp

/-- C2: `trim` returns `none` exactly when every frame of the clip is silent,
and otherwise returns the clip with exactly the maximal leading and trailing
runs of all-channel-zero frames removed: the clip splits as a silent lead,
the returned clip and a silent tail, and the returned clip's first and last
frames are non-silent (so the dropped runs are maximal and interior silence
is untouched inside the returned clip). -/
theorem trim_spec (clip : List (List ℚ)) :
    (trim clip = none ↔ ∀ f ∈ clip, silentFrame f = true) ∧
      ∀ t, trim clip = some t →
        ∃ pre post, clip = pre ++ t ++ post ∧
          (∀ f ∈ pre, silentFrame f = true) ∧ (∀ f ∈ post, silentFrame f = true) ∧
          t ≠ [] ∧ (∀ a, t.head? = some a → silentFrame a = false) ∧
          (∀ a, t.getLast? = some a → silentFrame a = false) := by
  constructor
  · unfold trim
    split
    · rename_i hnil
      exact ⟨fun _ => (dropSilence_eq_nil_iff clip).mp hnil, fun _ => rfl⟩
    · rename_i hnil
      constructor
      · intro hc
        simp at hc
      · intro hall
        exact absurd ((dropSilence_eq_nil_iff clip).mpr hall) hnil
  · intro t ht
    have hne : dropSilence clip ≠ [] ∧ dropSilence clip = t := by
      unfold trim at ht
      split at ht
      · simp at ht
      · rename_i hnil
        exact ⟨hnil, by injection ht⟩
    obtain ⟨hnil, heq⟩ := hne
    subst heq
    obtain ⟨pre, post, h1, h2, h3, h4, h5⟩ := dropSilence_spec clip hnil
    exact ⟨pre, post, h1, h2, h3, hnil, h4, h5⟩

/-- Witness for C2: the mono clip of frames `[0, 0, 1/2, 3/10, 0, 0]` trims
to `[1/2, 3/10]`, with the surrounding runs silent and maximal. -/
theorem trim_spec_witness :
    trim [[(0 : ℚ)], [0], [1/2], [3/10], [0], [0]] = some [[(1 : ℚ)/2], [3/10]] ∧
      ∃ pre post, ([[(0 : ℚ)], [0], [1/2], [3/10], [0], [0]] : List (List ℚ)) =
          pre ++ [[(1 : ℚ)/2], [3/10]] ++ post ∧
        (∀ f ∈ pre, silentFrame f = true) ∧ (∀ f ∈ post, silentFrame f = true) ∧
        ([[(1 : ℚ)/2], [3/10]] : List (List ℚ)) ≠ [] ∧
        (∀ a, ([[(1 : ℚ)/2], [3/10]] : List (List ℚ)).head? = some a →
          silentFrame a = false) ∧
        (∀ a, ([[(1 : ℚ)/2], [3/10]] : List (List ℚ)).getLast? = some a →
          silentFrame a = false) :=
  ⟨(by
    have h1 : ((1 : ℚ)/2 == 0) = false := by rw [beq_eq_false_iff_ne]; norm_num
    have h2 : ((3 : ℚ)/10 == 0) = false := by rw [beq_eq_false_iff_ne]; norm_num
    norm_num [trim, dropSilence, silentFrame, List.dropWhile, h1, h2] <;> simp),
    (trim_spec [[(0 : ℚ)], [0], [1/2], [3/10], [0], [0]]).2
      [[(1 : ℚ)/2], [3/10]] (by
    have h1 : ((1 : ℚ)/2 == 0) = false := by rw [beq_eq_false_iff_ne]; norm_num
    have h2 : ((3 : ℚ)/10 == 0) = false := by rw [beq_eq_false_iff_ne]; norm_num
    norm_num [trim, dropSilence, silentFrame, List.dropWhile, h1, h2] <;> simp)⟩

/-- C3: silence trimming is idempotent — when `trim` returns a clip,
trimming that clip returns the same clip unchanged. -/
theorem trim_idempotent (clip t : List (List ℚ)) (h : trim clip = some t) :
    trim t = some t := by
  have hne : dropSilence clip ≠ [] ∧ dropSilence clip = t := by
    unfold trim at h
    split at h
    · simp at h
    · rename_i hnil
      exact ⟨hnil, by injection h⟩
  obtain ⟨hnil, heq⟩ := hne
  subst heq
  obtain ⟨pre, post, h1, h2, h3, h4, h5⟩ := dropSilence_spec clip hnil
  have hdw : (dropSilence clip).dropWhile silentFrame = dropSilence clip := by
    obtain ⟨a, ts, hts⟩ := List.exists_cons_of_ne_nil hnil
    refine dropWhile_eq_self_of_head _ _ a ?_ (h4 a ?_) <;> rw [hts] <;> rfl
  have hrw : (dropSilence clip).reverse.dropWhile silentFrame =
      (dropSilence clip).reverse := by
    have hner : (dropSilence clip).reverse ≠ [] := by simpa using hnil
    obtain ⟨b, ts, hts⟩ := List.exists_cons_of_ne_nil hner
    refine dropWhile_eq_self_of_head _ _ b ?_ (h5 b ?_)
    · rw [hts]; rfl
    · rw [← List.head?_reverse, hts]; rfl
  have hfix : dropSilence (dropSilence clip) = dropSilence clip := by
    show (((dropSilence clip).dropWhile silentFrame).reverse.dropWhile
      silentFrame).reverse = dropSilence clip
    rw [hdw, hrw, List.reverse_reverse]
  unfold trim
  rw [hfix, if_neg hnil]

/-- Witness for C3: re-trimming the already-trimmed clip `[1/2, 3/10]`
returns it unchanged. -/
theorem trim_idempotent_witness :
    trim [[(1 : ℚ)/2], [3/10]] = some [[(1 : ℚ)/2], [3/10]] :=
  trim_idempotent [[(0 : ℚ)], [0], [1/2], [3/10], [0], [0]]
    [[(1 : ℚ)/2], [3/10]] (by
    have h1 : ((1 : ℚ)/2 == 0) = false := by rw [beq_eq_false_iff_ne]; norm_num
    have h2 : ((3 : ℚ)/10 == 0) = false := by rw [beq_eq_false_iff_ne]; norm_num
    norm_num [trim, dropSilence, silentFrame, List.dropWhile, h1, h2] <;> simp)

/-- Modelled from the spec: the user's buffer-size intent — a wall-clock
duration in seconds, or a note-length fraction `n/d` of whole notes. -/
inductive BufferSizeSpec where
  | duration (seconds : ℚ)
  | noteValue (n d : ℕ)
  deriving DecidableEq, Repr

/-- Modelled from the spec: host-supplied timing read each callback — sample
rate (Hz), tempo (beats per minute) and the time signature pair. -/
structure TimingContext where
  sample_rate : ℚ
  tempo : ℚ
  sig_num : ℕ
  sig_den : ℕ
  deriving DecidableEq, Repr

/-- Modelled from the spec: the BufferSizePolicy's
`resolve(spec, timing) -> ResolvedCapacity` — no such function is present
under `src/` (only the `BufferSize` parameter declaration is).  A duration
resolves to `seconds * sample_rate` samples; a note fraction `n/d` denotes
`n/d` whole notes, converted to beats via the time signature's beat unit,
to seconds via tempo (`60/tempo` seconds per beat), then to samples via the
sample rate; degenerate inputs are clamped to a minimum capacity of 1
sample, and a zero note denominator is treated as denominator 1. -/
def resolve (sizeSpec : BufferSizeSpec) (timing : TimingContext) : ℕ :=
  match sizeSpec with
  | .duration s => max 1 ⌊s * timing.sample_rate⌋.toNat
  | .noteValue n d =>
    let wholeNotes : ℚ := (n : ℚ) / ((if d = 0 then 1 else d : ℕ) : ℚ)
    let beats : ℚ := wholeNotes * (timing.sig_den : ℚ)
    max 1 ⌊60 / timing.tempo * beats * timing.sample_rate⌋.toNat

/-- C4: for a Duration spec whose seconds × sample-rate product is a whole
number of at least one sample, the resolved capacity is exactly that
product — no clamping or rounding intervenes; at 48000 Hz and 2.0 seconds
this is exactly 96000 samples. -/
theorem resolve_duration_exact (timing : TimingContext) (s : ℚ) (m : ℕ)
    (hm : 1 ≤ m) (hprod : s * timing.sample_rate = (m : ℚ)) :
    resolve (.duration s) timing = m := by
  show max 1 ⌊s * timing.sample_rate⌋.toNat = m
  rw [hprod, Int.floor_natCast, Int.toNat_natCast]
  exact max_eq_right hm

/-- Witness for C4: sample rate 48000 Hz and a 2.0-second duration resolve
to exactly 96000 samples. -/
theorem resolve_duration_exact_witness :
    resolve (.duration 2) ⟨48000, 120, 4, 4⟩ = 96000 :=
  resolve_duration_exact ⟨48000, 120, 4, 4⟩ 2 96000 (by norm_num) (by norm_num)

/-- C5: degenerate inputs never fail, they clamp: every resolved capacity is
at least 1; a non-positive duration resolves to exactly 1; a non-positive
tempo resolves any note-value spec to exactly 1 (given a non-negative sample
rate); and a zero note denominator behaves exactly as denominator 1 (a whole
note). -/
theorem resolve_clamps (timing : TimingContext) (s : ℚ) (n d : ℕ) :
    1 ≤ resolve (.duration s) timing ∧
      1 ≤ resolve (.noteValue n d) timing ∧
      (s ≤ 0 → 0 ≤ timing.sample_rate → resolve (.duration s) timing = 1) ∧
      (timing.tempo ≤ 0 → 0 ≤ timing.sample_rate →
        resolve (.noteValue n d) timing = 1) ∧
      resolve (.noteValue n 0) timing = resolve (.noteValue n 1) timing := by
  refine ⟨le_max_left _ _, le_max_left _ _, ?_, ?_, rfl⟩
  · intro hs hsr
    show max 1 ⌊s * timing.sample_rate⌋.toNat = 1
    have hprod : s * timing.sample_rate ≤ 0 :=
      mul_nonpos_iff.mpr (Or.inr ⟨hs, hsr⟩)
    have hfl : ⌊s * timing.sample_rate⌋ ≤ 0 := by
      calc ⌊s * timing.sample_rate⌋ ≤ ⌊(0 : ℚ)⌋ := Int.floor_le_floor hprod
        _ = 0 := by simp
    rw [Int.toNat_of_nonpos hfl]
    rfl
  · intro htempo hsr
    show max 1 ⌊60 / timing.tempo *
      ((n : ℚ) / ((if d = 0 then 1 else d : ℕ) : ℚ) * (timing.sig_den : ℚ)) *
      timing.sample_rate⌋.toNat = 1
    have hbeats : 0 ≤ (n : ℚ) / ((if d = 0 then 1 else d : ℕ) : ℚ) * (timing.sig_den : ℚ) := by
      positivity
    have hq : 60 / timing.tempo ≤ 0 := by
      rcases lt_or_eq_of_le htempo with hlt | heq
      · exact le_of_lt (div_neg_of_pos_of_neg (by norm_num) hlt)
      · rw [heq, div_zero]
    have hprod : 60 / timing.tempo *
        ((n : ℚ) / ((if d = 0 then 1 else d : ℕ) : ℚ) * (timing.sig_den : ℚ)) *
        timing.sample_rate ≤ 0 :=
      mul_nonpos_iff.mpr (Or.inr ⟨mul_nonpos_iff.mpr (Or.inr ⟨hq, hbeats⟩), hsr⟩)
    have hfl : ⌊60 / timing.tempo *
        ((n : ℚ) / ((if d = 0 then 1 else d : ℕ) : ℚ) * (timing.sig_den : ℚ)) *
        timing.sample_rate⌋ ≤ 0 := by
      calc ⌊60 / timing.tempo *
          ((n : ℚ) / ((if d = 0 then 1 else d : ℕ) : ℚ) * (timing.sig_den : ℚ)) *
          timing.sample_rate⌋ ≤ ⌊(0 : ℚ)⌋ := Int.floor_le_floor hprod
        _ = 0 := by simp
    rw [Int.toNat_of_nonpos hfl]
    rfl

/-- Witness for C5: a duration of −1 s clamps to 1 sample; tempo 0 clamps a
quarter-note spec to 1 sample; note denominator 0 resolves exactly as
denominator 1. -/
theorem resolve_clamps_witness :
    resolve (.duration (-1)) ⟨48000, 120, 4, 4⟩ = 1 ∧
      resolve (.noteValue 1 4) ⟨48000, 0, 4, 4⟩ = 1 ∧
      resolve (.noteValue 1 0) ⟨48000, 120, 4, 4⟩ =
        resolve (.noteValue 1 1) ⟨48000, 120, 4, 4⟩ :=
  ⟨(resolve_clamps ⟨48000, 120, 4, 4⟩ (-1) 1 4).2.2.1 (by norm_num) (by norm_num),
    (resolve_clamps ⟨48000, 0, 4, 4⟩ (-1) 1 4).2.2.2.1 (by norm_num) (by norm_num),
    (resolve_clamps ⟨48000, 120, 4, 4⟩ (-1) 1 0).2.2.2.2⟩

/-- C6: `resolve` is deterministic — two calls with identical spec and
timing inputs always yield identical resolved capacities. -/
theorem resolve_deterministic (spec1 spec2 : BufferSizeSpec)
    (t1 t2 : TimingContext) (hs : spec1 = spec2) (ht : t1 = t2) :
    resolve spec1 t1 = resolve spec2 t2 := by
  rw [hs, ht]

/-- Witness for C6: two identical calls at 48000 Hz / 2.0 s agree. -/
theorem resolve_deterministic_witness :
    resolve (.duration 2) ⟨48000, 120, 4, 4⟩ =
      resolve (.duration 2) ⟨48000, 120, 4, 4⟩ :=
  resolve_deterministic (.duration 2) (.duration 2)
    ⟨48000, 120, 4, 4⟩ ⟨48000, 120, 4, 4⟩ rfl rfl

/-- Modelled from the spec: the VisualizationHandoff's latest-wins channel
state — the most recently published complete snapshot plus whether it was
published since the last read.  The channel implementation is the external
`triple_buffer` crate, not code under `src/` (the source only creates the
channel from an initial snapshot and calls its read side). -/
structure VisualizationHandoff where
  latest : List ℚ
  fresh : Bool
  deriving DecidableEq, Repr

namespace VisualizationHandoff

/-- Modelled from the spec: a channel created with an initial snapshot (the
source creates it from the empty sample vector); the initial snapshot counts
as published and not yet read. -/
def new (init : List ℚ) : VisualizationHandoff := ⟨init, true⟩

/-- Modelled from the spec: `publish(snapshot)` installs a fully-formed
snapshot; older unread snapshots are superseded, never queued. -/
def publish (h : VisualizationHandoff) (snap : List ℚ) : VisualizationHandoff :=
  ⟨snap, true⟩

/-- Modelled from the spec: `try_read()` never blocks and returns the most
recently published complete snapshot, or `none` if nothing new was published
since the last read; reading consumes the freshness. -/
def try_read (h : VisualizationHandoff) : Option (List ℚ) × VisualizationHandoff :=
  if h.fresh then (some h.latest, ⟨h.latest, false⟩) else (none, h)

end VisualizationHandoff

/-- C8: `try_read` returns the snapshot most recently published when one was
published since the last read and `none` otherwise: a read directly after a
publish yields exactly that snapshot, a second read with no intervening
publish yields no new data, and a channel with nothing fresh yields none. -/
theorem try_read_latest_wins (h : VisualizationHandoff) (snap : List ℚ) :
    ((h.publish snap).try_read).1 = some snap ∧
      ((h.try_read.2).try_read).1 = none ∧
      (h.fresh = false → h.try_read.1 = none) := by
  refine ⟨rfl, ?_, ?_⟩
  · cases hf : h.fresh <;>
      simp [VisualizationHandoff.try_read, VisualizationHandoff.publish, hf]
  · intro hf
    simp [VisualizationHandoff.try_read, hf]

/-- Witness for C8: after the initial snapshot of a fresh channel is read
once, a second read with no intervening publish returns no new data. -/
theorem try_read_latest_wins_witness :
    (((VisualizationHandoff.new []).try_read.2).try_read).1 = none :=
  (try_read_latest_wins ((VisualizationHandoff.new []).try_read.2) []).2.2 rfl

/-- `BufferSizeUnit` from `src/src/buffer_size.rs`. -/
inductive BufferSizeUnit where
  | seconds
  | notes
  deriving DecidableEq, Repr

/-- `Note(numerator, denominator)` from `src/src/buffer_size.rs`. -/
structure Note where
  num : ℕ
  den : ℕ
  deriving DecidableEq, Repr

/-- The `BufferSize` parameter group from `src/src/buffer_size.rs`: the
chosen unit together with the value for each unit. -/
structure BufferSize where
  unit : BufferSizeUnit
  seconds : ℚ
  notes : Note
  deriving DecidableEq, Repr

/-- `ThemeType` from `src/src/editor.rs`. -/
inductive ThemeType where
  | dark
  | light
  deriving DecidableEq, Repr

/-- `RollingSamplerCloneParams` from `src/src/lib.rs`: the persisted
configuration (the editor-state window size is GUI plumbing, not state the
claims mention). -/
structure RollingSamplerCloneParams where
  buffer_size : BufferSize
  theme_type : ThemeType
  clear_on_play : Bool
  trim_silence : Bool
  deriving DecidableEq, Repr

/-- `Default for RollingSamplerCloneParams` from `src/src/lib.rs`: Seconds
unit, 10.0 seconds, note value `Note(1, 4)`, dark theme, clear-on-play off,
trim-silence on. -/
def RollingSamplerCloneParams.default : RollingSamplerCloneParams :=
  { buffer_size := { unit := .seconds, seconds := 10, notes := ⟨1, 4⟩ }
    theme_type := .dark
    clear_on_play := false
    trim_silence := true }

/-- `RollingSamplerClone` from `src/src/lib.rs`: the plugin state — the
params, the waveform triple-buffer channel, the recording buffer and the
buffer-size-invalidated flag. -/
structure RollingSamplerClone where
  params : RollingSamplerCloneParams
  waveform_handoff : VisualizationHandoff
  recording_buffer : List (List ℚ)
  buffer_size_invalidated : Bool
  deriving DecidableEq, Repr

/-- `Default for RollingSamplerClone` from `src/src/lib.rs`: default params,
the waveform channel created from the empty sample vector, an empty
recording buffer and the invalidation flag down. -/
def RollingSamplerClone.default : RollingSamplerClone :=
  { params := RollingSamplerCloneParams.default
    waveform_handoff := VisualizationHandoff.new []
    recording_buffer := []
    buffer_size_invalidated := false }

/-- The host-API process statuses `process` can return. -/
inductive ProcessStatus where
  | normal
  | error
  deriving DecidableEq, Repr

/-- `RollingSamplerClone::process` from `src/src/lib.rs`: iterates the
host buffer's frames, collecting each frame's samples into a local vector
that is immediately discarded, then returns `ProcessStatus::Normal`; no
plugin state is read for decisions or written. -/
def RollingSamplerClone.process (self : RollingSamplerClone)
    (buffer : List (List ℚ)) : RollingSamplerClone × ProcessStatus :=
  let _samples := buffer.map (fun channel_samples => channel_samples.map (fun x => x))
  (self, ProcessStatus.normal)

/-- C9: for every input buffer, `process` returns `ProcessStatus::Normal`
and leaves all plugin state unchanged — recording buffer untouched, no
snapshot published to the waveform channel, configuration unread and
unchanged. -/
theorem process_is_inert (self : RollingSamplerClone) (buffer : List (List ℚ)) :
    self.process buffer = (self, ProcessStatus.normal) ∧
      (self.process buffer).1.recording_buffer = self.recording_buffer ∧
      (self.process buffer).1.waveform_handoff = self.waveform_handoff ∧
      (self.process buffer).1.params = self.params :=
  ⟨rfl, rfl, rfl, rfl⟩

/-- C10: a freshly constructed plugin has the default configuration —
Seconds unit at 10.0 seconds, note value 1/4, dark theme, clear-on-play
false, trim-silence true — and its waveform channel starts from the empty
snapshot, so the consumer's first read yields the empty sample list. -/
theorem default_plugin_state :
    RollingSamplerClone.default.params.buffer_size.unit = BufferSizeUnit.seconds ∧
      RollingSamplerClone.default.params.buffer_size.seconds = 10 ∧
      RollingSamplerClone.default.params.buffer_size.notes = ⟨1, 4⟩ ∧
      RollingSamplerClone.default.params.theme_type = ThemeType.dark ∧
      RollingSamplerClone.default.params.clear_on_play = false ∧
      RollingSamplerClone.default.params.trim_silence = true ∧
      RollingSamplerClone.default.waveform_handoff.try_read.1 = some [] :=
  ⟨rfl, rfl, rfl, rfl, rfl, rfl, rfl⟩
